import Mathlib

/-!
Verification of the paks CLI skill source-resolution and publish pipelines.

The Rust code is shallowly embedded: Rust strings become `List Char`
(with `byteLen` computing the UTF-8 byte length wherever Rust `.len()`
counts bytes), fallible functions return `Except String _`, and the
filesystem / git side effects of the orchestrators are abstracted into
explicit parameters and effect lists.
-/

/-- Rust strings are embedded as lists of characters. -/
abbrev Str := List Char

/-- Convert a Lean string literal into the embedding. -/
def lit (s : String) : Str := s.toList

/-- The UTF-8 byte length of a string, matching Rust `str::len`. -/
def byteLen (s : Str) : Nat := (s.map Char.utf8Size).sum

/-- Split a string on every occurrence of a separator character,
matching Rust `str::split(c)` (empty pieces are kept; the empty
string yields one empty piece). -/
def splitOnChar (c : Char) : Str → List Str
  | [] => [[]]
  | a :: rest =>
    let r := splitOnChar c rest
    if a = c then [] :: r
    else
      match r with
      | [] => [[a]]
      | x :: xs => (a :: x) :: xs

/-- Split a string at the last occurrence of a character, matching
Rust `str::rfind(c)` followed by slicing around the found index.
Returns `none` when the character does not occur. -/
def rsplitOnce (c : Char) : Str → Option (Str × Str)
  | [] => none
  | a :: rest =>
    match rsplitOnce c rest with
    | some (pre, post) => some (a :: pre, post)
    | none => if a = c then some ([], rest) else none

/-- Split a string at the first occurrence of a character, matching
Rust `str::find(c)` followed by slicing around the found index. -/
def fsplitOnce (c : Char) : Str → Option (Str × Str)
  | [] => none
  | a :: rest =>
    if a = c then some ([], rest)
    else
      match fsplitOnce c rest with
      | some (pre, post) => some (a :: pre, post)
      | none => none

/-- Remove a leading pattern from a string, matching Rust
`str::strip_prefix`. -/
def stripPre (p s : Str) : Option Str :=
  match p, s with
  | [], s => some s
  | _ :: _, [] => none
  | a :: p, b :: s => if a = b then stripPre p s else none

/-- Substring test, matching Rust `str::contains(pat)`. -/
def hasSub (pat : Str) : Str → Bool
  | [] => pat.isEmpty
  | a :: rest => (stripPre pat (a :: rest)).isSome || hasSub pat rest

/-- Character class accepted for account and skill names:
ASCII lowercase letters, ASCII digits, and hyphen. -/
def isRefChar (c : Char) : Bool :=
  c.isLower || c.isDigit || c = '-'

/-- Parsed skill reference (`SkillRef` in `install.rs`). -/
structure SkillRef where
  account : Str
  name : Str
  version : Option Str
deriving DecidableEq, Repr

namespace SkillRef

/-- Embedding of `SkillRef::parse` from `install.rs`: split at the last
`@` into identifier and version (a trailing empty version is an error),
require the identifier to split into exactly two `/`-delimited parts,
and validate the account (1-39 bytes, restricted charset) and the
skill name (1-64 bytes, restricted charset). -/
def parse (input : Str) : Except String SkillRef :=
  let idver : Except String (Str × Option Str) :=
    match rsplitOnce '@' input with
    | some (id, ver) =>
      if ver.isEmpty then Except.error "Version cannot be empty after @"
      else Except.ok (id, some ver)
    | none => Except.ok (input, none)
  match idver with
  | Except.error e => Except.error e
  | Except.ok (identifier, version) =>
    match splitOnChar '/' identifier with
    | [account, name] =>
      if account.isEmpty || byteLen account > 39 then
        Except.error "Account name must be 1-39 characters"
      else if !(account.all isRefChar) then
        Except.error "Account name must contain only lowercase letters, numbers, and hyphens"
      else if name.isEmpty || byteLen name > 64 then
        Except.error "Skill name must be 1-64 characters"
      else if !(name.all isRefChar) then
        Except.error "Skill name must contain only lowercase letters, numbers, and hyphens"
      else Except.ok ⟨account, name, version⟩
    | _ => Except.error "Invalid skill reference. Expected format: account/skill[@version]"

/-- Embedding of `SkillRef::to_uri`. -/
def to_uri (r : SkillRef) : Str :=
  match r.version with
  | some v => r.account ++ '/' :: r.name ++ '@' :: v
  | none => r.account ++ '/' :: r.name

end SkillRef

/-- Source type for skill installation (`SourceType` in `install.rs`). -/
inductive SourceType where
  | Registry (r : SkillRef)
  | Git (url : Str) (git_ref : Option Str) (path : Option Str)
  | Local (path : Str)
deriving DecidableEq, Repr

/-- One step of the fragment fold in `parse_git_url`: keys `ref=`,
`tag=`, `branch=` overwrite the ref field, `path=` overwrites the
path field, anything else is ignored. -/
def gitFragStep (st : Option Str × Option Str) (part : Str) : Option Str × Option Str :=
  match stripPre (lit "ref=") part with
  | some v => (some v, st.2)
  | none =>
    match stripPre (lit "tag=") part with
    | some v => (some v, st.2)
    | none =>
      match stripPre (lit "branch=") part with
      | some v => (some v, st.2)
      | none =>
        match stripPre (lit "path=") part with
        | some v => (st.1, some v)
        | none => st

/-- Embedding of `parse_git_url` from `install.rs`: split at the first
`#`; the fragment is `&`-separated and folded left to right with
`gitFragStep`. -/
def parse_git_url (url : Str) : Str × Option Str × Option Str :=
  match fsplitOnce '#' url with
  | some (base, frag) =>
    let st := (splitOnChar '&' frag).foldl gitFragStep (none, none)
    (base, st.1, st.2)
  | none => (url, none, none)

/-- Condition guarding the git branch of `detect_source_type`. -/
def gitUrlStart (s : Str) : Bool :=
  (lit "https://").isPrefixOf s || (lit "http://").isPrefixOf s ||
  (lit "git@").isPrefixOf s || (lit "ssh://").isPrefixOf s

/-- Condition guarding the unix-local-path branch of `detect_source_type`. -/
def localPathStart (s : Str) : Bool :=
  (lit "./").isPrefixOf s || (lit "../").isPrefixOf s || (lit "/").isPrefixOf s

/-- Condition guarding the drive-letter branch of `detect_source_type`:
Rust checks `source.len() >= 2` (bytes) and that the second character
is a colon. -/
def driveLetterLike (s : Str) : Bool :=
  decide (2 ≤ byteLen s) && s.get? 1 == some ':'

/-- Embedding of `detect_source_type` from `install.rs`.  The
filesystem probe `path.exists() && path.join("SKILL.md").exists()` is
abstracted as the predicate `fsHasSkill`. -/
def detect_source_type (fsHasSkill : Str → Bool) (source : Str) : SourceType :=
  if gitUrlStart source then
    let p := parse_git_url source
    SourceType.Git p.1 p.2.1 p.2.2
  else if localPathStart source then
    SourceType.Local source
  else if driveLetterLike source then
    SourceType.Local source
  else if fsHasSkill source then
    SourceType.Local source
  else
    match SkillRef.parse source with
    | Except.ok r => SourceType.Registry r
    | Except.error _ =>
      if source.contains '/' && !(hasSub (lit "://") source) then
        match SkillRef.parse source with
        | Except.ok r => SourceType.Registry r
        | Except.error _ => SourceType.Local source
      else
        SourceType.Local source

/-- Variant of `detect_source_type` with the defensive second parse
attempt (the slash-containing retry) removed. -/
def detect_source_type_noretry (fsHasSkill : Str → Bool) (source : Str) : SourceType :=
  if gitUrlStart source then
    let p := parse_git_url source
    SourceType.Git p.1 p.2.1 p.2.2
  else if localPathStart source then
    SourceType.Local source
  else if driveLetterLike source then
    SourceType.Local source
  else if fsHasSkill source then
    SourceType.Local source
  else
    match SkillRef.parse source with
    | Except.ok r => SourceType.Registry r
    | Except.error _ => SourceType.Local source

/-- Embedding of Rust `u32::from_str`: an optional leading `+` sign,
then at least one ASCII digit, with the value required to fit in 32
bits (overflow is a parse error). -/
def parseU32 (s : Str) : Option Nat :=
  let t := match s with
    | '+' :: rest => rest
    | _ => s
  if t.isEmpty then none
  else if t.all Char.isDigit then
    let v := t.foldl (fun acc c => acc * 10 + (c.toNat - 48)) 0
    if v < 2 ^ 32 then some v else none
  else none

/-- Strip one optional leading `v`, matching
`version.strip_prefix('v').unwrap_or(version)`. -/
def stripLeadingV (version : Str) : Str :=
  match stripPre (lit "v") version with
  | some rest => rest
  | none => version

/-- Embedding of `parse_version` from `publish.rs`: strip one optional
leading `v`, split on `.`, require exactly three parts, parse each as
a `u32`. -/
def parse_version (version : Str) : Except String (Nat × Nat × Nat) :=
  match splitOnChar '.' (stripLeadingV version) with
  | [p0, p1, p2] =>
    match parseU32 p0 with
    | none => Except.error "Invalid major version"
    | some major =>
      match parseU32 p1 with
      | none => Except.error "Invalid minor version"
      | some minor =>
        match parseU32 p2 with
        | none => Except.error "Invalid patch version"
        | some patch => Except.ok (major, minor, patch)
  | _ => Except.error "Invalid version format. Expected MAJOR.MINOR.PATCH"

/-- Decimal rendering of a natural number, matching Rust formatting of
`u32` values in `format!`. -/
def natToStr (n : Nat) : Str := Nat.toDigits 10 n

/-- Rendering of a version triple as a `v`-prefixed tag, matching the
`format!("v{}.{}.{}", ..)` calls in `publish.rs`. -/
def vTag (major minor patch : Nat) : Str :=
  'v' :: (natToStr major ++ '.' :: natToStr minor ++ '.' :: natToStr patch)

/-- Tag selection result (`TagSelection` in `publish.rs`). -/
inductive TagSelection where
  | Existing (tag : Str)
  | New (tag : Str)
deriving DecidableEq, Repr

/-- Normalization of an explicit `--tag` argument in `publish::run`:
prepend `v` unless the argument already starts with `v`. -/
def normalizeTagArg (explicitTag : Str) : Str :=
  if (lit "v").isPrefixOf explicitTag then explicitTag else 'v' :: explicitTag

/-- Embedding of step 4 of `publish::run` (the `let (tag, needs_create) =`
block): explicit tag argument first, then the non-interactive patch
bump, then the interactive selection (whose prompt outcome is
abstracted as `promptSel`).  Returns the chosen tag and whether a new
tag must be created.  The patch bump is computed in u32 arithmetic
(Rust `patch + 1` on a `u32` wraps on overflow in release builds),
modelled as addition modulo 2^32. -/
def selectTag (tagArg : Option Str) (yes : Bool) (currentVersion : Str)
    (tagExistsFn : Str → Bool) (promptSel : TagSelection) : Except String (Str × Bool) :=
  match tagArg with
  | some explicitTag =>
    let tagToCheck := normalizeTagArg explicitTag
    match parse_version tagToCheck with
    | Except.error e => Except.error e
    | Except.ok _ =>
      if tagExistsFn tagToCheck then Except.ok (tagToCheck, false)
      else Except.error "Tag does not exist."
  | none =>
    if yes then
      match parse_version currentVersion with
      | Except.error e => Except.error e
      | Except.ok (major, minor, patch) =>
        let newTag := vTag major minor ((patch + 1) % 2 ^ 32)
        if tagExistsFn newTag then Except.error "Tag already exists."
        else Except.ok (newTag, true)
    else
      match promptSel with
      | TagSelection.New t =>
        if tagExistsFn t then Except.error "Tag already exists."
        else Except.ok (t, true)
      | TagSelection.Existing t => Except.ok (t, false)

/-- Git side effects of the publish pipeline's tagging step. -/
inductive GitAction where
  | createTag (tag msg : Str)
  | pushTag (remote tag : Str)
deriving DecidableEq, Repr

/-- Embedding of step 6 of `publish::run`: when the selected tag is
new, create an annotated tag with message `Release <tag>` and push it
to `origin`; when the tag already existed, perform no git action. -/
def publishTagActions (tag : Str) (needsCreate : Bool) : List GitAction :=
  if needsCreate then
    [GitAction.createTag tag (lit "Release " ++ tag),
     GitAction.pushTag (lit "origin") tag]
  else []

/-- The fields of `SkillFrontmatter` (`skill.rs`) inspected by
`validate`; the remaining manifest fields (license, metadata, authors,
repository, homepage, keywords, categories, dependencies,
allowed_tools) are never read by `validate` and are omitted from the
embedding. -/
structure SkillFrontmatter where
  name : Str
  description : Str
  compatibility : Option Str
deriving DecidableEq, Repr

/-- Embedding of `SkillFrontmatter::validate` from `skill.rs`: hard
failures for name length/charset/hyphen-placement, description length
and compatibility length; a warning (non-fatal) for a description
shorter than 20 bytes. -/
def SkillFrontmatter.validate (f : SkillFrontmatter) : Except String (List Str) :=
  if f.name.isEmpty || byteLen f.name > 64 then
    Except.error "name must be 1-64 characters"
  else if !(f.name.all isRefChar) then
    Except.error "name must contain only lowercase letters, numbers, and hyphens"
  else if f.name.head? == some '-' || f.name.getLast? == some '-' then
    Except.error "name must not start or end with a hyphen"
  else if hasSub (lit "--") f.name then
    Except.error "name must not contain consecutive hyphens"
  else if f.description.isEmpty || byteLen f.description > 1024 then
    Except.error "description must be 1-1024 characters"
  else
    let warnings := if byteLen f.description < 20 then
      [lit "description is very short; consider adding more detail"] else []
    match f.compatibility with
    | some compat =>
      if byteLen compat > 500 then
        Except.error "compatibility must be at most 500 characters"
      else Except.ok warnings
    | none => Except.ok warnings

/-- Filesystem effects of a registry install. -/
inductive RegistryInstallStep where
  | removeTarget
  | placeCopy
deriving DecidableEq, Repr

/-- Embedding of the target-collision policy of `install_from_registry`
(`install.rs`, the `if target_dir.exists()` block and the following
placement): `targetExists` abstracts `target_dir.exists()`,
`loadVersion` abstracts `Skill::load` on the existing target (`some`
of the installed version on success), and `resolvedVersion` is the
registry-resolved version.  Returns the ordered list of filesystem
mutations performed, or the error raised. -/
def install_from_registry_plan (force targetExists : Bool) (loadVersion : Option Str)
    (resolvedVersion : Str) : Except String (List RegistryInstallStep) :=
  if targetExists then
    if !force then
      match loadVersion with
      | some installedVersion =>
        if installedVersion = resolvedVersion then
          Except.ok []
        else
          Except.error "Skill already exists. Use --force to reinstall."
      | none => Except.error "Skill already exists. Use --force to reinstall."
    else
      Except.ok [RegistryInstallStep.removeTarget, RegistryInstallStep.placeCopy]
  else
    Except.ok [RegistryInstallStep.placeCopy]

/-- File trees, for the materializer: regular files with byte
contents, symbolic links with a target, and directories with a list
of named entries. -/
inductive FsTree where
  | file (data : List Nat) : FsTree
  | symlink (target : String) : FsTree
  | dir (entries : List (String × FsTree)) : FsTree

/-- Embedding of `copy_dir_recursive` from `install.rs`, expressed on
the entry list of a directory: a subdirectory named `.git` is skipped
entirely, any other subdirectory is recursed into, a regular file is
byte-copied, and a symbolic link is recreated with the same target. -/
def copy_dir_recursive : List (String × FsTree) → List (String × FsTree)
  | [] => []
  | (n, FsTree.dir es) :: rest =>
    if n = ".git" then copy_dir_recursive rest
    else (n, FsTree.dir (copy_dir_recursive es)) :: copy_dir_recursive rest
  | (n, FsTree.file d) :: rest => (n, FsTree.file d) :: copy_dir_recursive rest
  | (n, FsTree.symlink t) :: rest => (n, FsTree.symlink t) :: copy_dir_recursive rest

/-- No entry of the tree, at any depth, is a directory named `.git`. -/
def entriesGitFree : List (String × FsTree) → Bool
  | [] => true
  | (n, FsTree.dir es) :: rest =>
    decide (n ≠ ".git") && entriesGitFree es && entriesGitFree rest
  | _ :: rest => entriesGitFree rest

/-- Validity of an account name by the rules `SkillRef::parse`
enforces: nonempty, at most 39 bytes, restricted charset. -/
def validAccount (a : Str) : Bool :=
  !a.isEmpty && decide (byteLen a ≤ 39) && a.all isRefChar

/-- Validity of a skill name by the rules `SkillRef::parse` enforces:
nonempty, at most 64 bytes, restricted charset. -/
def validName (n : Str) : Bool :=
  !n.isEmpty && decide (byteLen n ≤ 64) && n.all isRefChar

/-- Value assigned to the ref field by a single fragment part: the
payload of a `ref=`, `tag=` or `branch=` key. -/
def refKeyVal (p : Str) : Option Str :=
  match stripPre (lit "ref=") p with
  | some v => some v
  | none =>
    match stripPre (lit "tag=") p with
    | some v => some v
    | none => stripPre (lit "branch=") p

/-- Value assigned to the path field by a single fragment part: the
payload of a `path=` key. -/
def pathKeyVal (p : Str) : Option Str := stripPre (lit "path=") p

/-- The last-occurrence-wins ref value over a list of fragment parts. -/
def lastRefVal : List Str → Option Str
  | [] => none
  | p :: ps =>
    match lastRefVal ps with
    | some v => some v
    | none => refKeyVal p

/-- The last-occurrence-wins path value over a list of fragment parts. -/
def lastPathVal : List Str → Option Str
  | [] => none
  | p :: ps =>
    match lastPathVal ps with
    | some v => some v
    | none => pathKeyVal p

/-- The part of a git URL before the first `#` (the whole URL when
there is no fragment). -/
def gitBaseUrl (s : Str) : Str :=
  match fsplitOnce '#' s with
  | some (base, _) => base
  | none => s

/-- The `&`-separated parts of the fragment after the first `#`
(empty when there is no fragment). -/
def gitFragParts (s : Str) : List Str :=
  match fsplitOnce '#' s with
  | some (_, frag) => splitOnChar '&' frag
  | none => []

/-- The condition under which `SkillFrontmatter::validate` succeeds,
as one order-independent conjunction. -/
def validateOkCond (f : SkillFrontmatter) : Bool :=
  !f.name.isEmpty && decide (byteLen f.name ≤ 64) && f.name.all isRefChar &&
  !(f.name.head? == some '-') && !(f.name.getLast? == some '-') &&
  !(hasSub (lit "--") f.name) &&
  !f.description.isEmpty && decide (byteLen f.description ≤ 1024) &&
  (match f.compatibility with
   | some compat => decide (byteLen compat ≤ 500)
   | none => true)

theorem stripPre_eq_some_iff (p : Str) : ∀ (s r : Str), stripPre p s = some r ↔ s = p ++ r := by
  induction p with
  | nil => intro s r; simp [stripPre, eq_comm]
  | cons a p ih =>
    intro s r
    cases s with
    | nil => simp [stripPre]
    | cons b s' =>
      by_cases hab : a = b
      · subst hab
        simp [stripPre, ih]
      · simp [stripPre, hab, Ne.symm hab]

theorem rsplitOnce_eq_none_iff (c : Char) : ∀ s : Str, rsplitOnce c s = none ↔ c ∉ s := by
  intro s
  induction s with
  | nil => simp [rsplitOnce]
  | cons a rest ih =>
    simp only [rsplitOnce]
    cases h : rsplitOnce c rest with
    | some pq =>
      obtain ⟨p, q⟩ := pq
      have hcin : c ∈ rest := by
        by_contra hmem
        simp [ih.mpr hmem] at h
      simp [hcin]
    | none =>
      have hni : c ∉ rest := ih.mp h
      by_cases hac : a = c
      · subst hac
        simp
      · simp [hac, Ne.symm hac, hni]

theorem rsplitOnce_eq_some_iff (c : Char) :
    ∀ (s pre post : Str), rsplitOnce c s = some (pre, post) ↔ s = pre ++ c :: post ∧ c ∉ post := by
  intro s
  induction s with
  | nil =>
    intro pre post
    simp only [rsplitOnce]
    constructor
    · intro h; cases h
    · rintro ⟨h, -⟩
      exact absurd h.symm (List.append_ne_nil_of_right_ne_nil pre (List.cons_ne_nil c post))
  | cons a rest ih =>
    intro pre post
    simp only [rsplitOnce]
    cases h : rsplitOnce c rest with
    | some pq =>
      obtain ⟨p, q⟩ := pq
      obtain ⟨hrest, hq⟩ := (ih p q).mp h
      simp only [Option.some.injEq, Prod.mk.injEq]
      constructor
      · rintro ⟨rfl, rfl⟩
        exact ⟨by simp [hrest], hq⟩
      · rintro ⟨heq, hpost⟩
        cases pre with
        | nil =>
          simp only [List.nil_append, List.cons.injEq] at heq
          refine absurd ?_ hpost
          rw [← heq.2, hrest]
          simp
        | cons b pre' =>
          simp only [List.cons_append, List.cons.injEq] at heq
          have h2 := (ih pre' post).mpr ⟨heq.2, hpost⟩
          rw [h] at h2
          simp only [Option.some.injEq, Prod.mk.injEq] at h2
          exact ⟨by rw [heq.1, h2.1], h2.2⟩
    | none =>
      have hni : c ∉ rest := (rsplitOnce_eq_none_iff c rest).mp h
      by_cases hac : a = c
      · simp only [if_pos hac, Option.some.injEq, Prod.mk.injEq]
        constructor
        · rintro ⟨rfl, rfl⟩
          simp [hac, hni]
        · rintro ⟨heq, hpost⟩
          cases pre with
          | nil =>
            simp only [List.nil_append, List.cons.injEq] at heq
            exact ⟨rfl, heq.2⟩
          | cons b pre' =>
            simp only [List.cons_append, List.cons.injEq] at heq
            refine absurd ?_ hni
            rw [heq.2]
            simp
      · simp only [if_neg hac]
        constructor
        · intro h; cases h
        · rintro ⟨heq, hpost⟩
          cases pre with
          | nil =>
            simp only [List.nil_append, List.cons.injEq] at heq
            exact absurd heq.1 hac
          | cons b pre' =>
            simp only [List.cons_append, List.cons.injEq] at heq
            refine absurd ?_ hni
            rw [heq.2]
            simp

theorem splitOnChar_ne_nil (c : Char) : ∀ s : Str, splitOnChar c s ≠ [] := by
  intro s
  cases s with
  | nil => simp [splitOnChar]
  | cons a rest =>
    simp only [splitOnChar]
    by_cases hac : a = c
    · simp [hac]
    · simp only [if_neg hac]
      cases h : splitOnChar c rest with
      | nil => simp
      | cons x xs => simp

theorem splitOnChar_of_not_mem (c : Char) : ∀ s : Str, c ∉ s → splitOnChar c s = [s] := by
  intro s
  induction s with
  | nil => intro _; rfl
  | cons a rest ih =>
    intro hmem
    have hac : ¬(a = c) := fun h => hmem (by simp [h])
    have hr : splitOnChar c rest = [rest] := ih (fun h => hmem (by simp [h]))
    simp [splitOnChar, hac, hr]

theorem splitOnChar_append_sep (c : Char) :
    ∀ (a b : Str), c ∉ a → splitOnChar c (a ++ c :: b) = a :: splitOnChar c b := by
  intro a
  induction a with
  | nil => intro b _; simp [splitOnChar]
  | cons x a' ih =>
    intro b hmem
    have hxc : ¬(x = c) := fun h => hmem (by simp [h])
    have hr := ih b (fun h => hmem (by simp [h]))
    simp only [List.cons_append, splitOnChar, if_neg hxc, List.append_eq, hr]

theorem splitOnChar_eq_single_iff (c : Char) :
    ∀ (s b : Str), splitOnChar c s = [b] ↔ s = b ∧ c ∉ s := by
  intro s
  induction s with
  | nil =>
    intro b
    simp [splitOnChar, eq_comm]
  | cons a rest ih =>
    intro b
    by_cases hac : a = c
    · simp only [splitOnChar, if_pos hac]
      constructor
      · intro hL
        exact absurd (List.cons.inj hL).2 (splitOnChar_ne_nil c rest)
      · rintro ⟨rfl, hmem⟩
        exact absurd (List.mem_cons.mpr (Or.inl hac.symm)) hmem
    · simp only [splitOnChar, if_neg hac]
      cases hr : splitOnChar c rest with
      | nil => exact absurd hr (splitOnChar_ne_nil c rest)
      | cons y ys =>
        constructor
        · intro hL
          obtain ⟨hb, hys⟩ := List.cons.inj hL
          have hsingle : splitOnChar c rest = [y] := by rw [hr, hys]
          obtain ⟨hry, hcr⟩ := (ih y).mp hsingle
          constructor
          · rw [← hb, hry]
          · intro hm
            rcases List.mem_cons.mp hm with h1 | h2
            · exact hac h1.symm
            · exact hcr h2
        · rintro ⟨heq, hmem⟩
          have hcr : c ∉ rest := fun hm => hmem (List.mem_cons_of_mem a hm)
          have h2 := splitOnChar_of_not_mem c rest hcr
          rw [hr] at h2
          obtain ⟨hy, hys⟩ := List.cons.inj h2
          rw [hy, hys, ← heq]

theorem splitOnChar_eq_pair_iff (c : Char) :
    ∀ (s a b : Str), splitOnChar c s = [a, b] ↔ s = a ++ c :: b ∧ c ∉ a ∧ c ∉ b := by
  intro s
  induction s with
  | nil =>
    intro a b
    simp only [splitOnChar]
    constructor
    · intro h; cases h
    · rintro ⟨h, -, -⟩
      exact absurd h.symm (List.append_ne_nil_of_right_ne_nil a (List.cons_ne_nil c b))
  | cons x rest ih =>
    intro a b
    by_cases hxc : x = c
    · simp only [splitOnChar, if_pos hxc]
      constructor
      · intro hL
        obtain ⟨ha, hsingle⟩ := List.cons.inj hL
        obtain ⟨hrb, hcb⟩ := (splitOnChar_eq_single_iff c rest b).mp hsingle
        refine ⟨?_, ?_, by rw [← hrb]; exact hcb⟩
        · rw [← ha]
          simp only [List.nil_append]
          rw [hxc, hrb]
        · rw [← ha]
          exact List.not_mem_nil c
      · rintro ⟨heq, hca, hcb⟩
        cases a with
        | nil =>
          simp only [List.nil_append] at heq
          obtain ⟨-, hrb⟩ := List.cons.inj heq
          have hsingle : splitOnChar c rest = [b] :=
            (splitOnChar_eq_single_iff c rest b).mpr ⟨hrb, by rw [hrb]; exact hcb⟩
          rw [hsingle]
        | cons z a' =>
          obtain ⟨hxz, -⟩ := List.cons.inj heq
          exact absurd (List.mem_cons.mpr (Or.inl (hxc.symm.trans hxz))) hca
    · simp only [splitOnChar, if_neg hxc]
      cases hr : splitOnChar c rest with
      | nil => exact absurd hr (splitOnChar_ne_nil c rest)
      | cons y ys =>
        constructor
        · intro hL
          obtain ⟨ha, hys⟩ := List.cons.inj hL
          have hpair : splitOnChar c rest = [y, b] := by rw [hr, hys]
          obtain ⟨hrest, hcy, hcb⟩ := (ih y b).mp hpair
          refine ⟨?_, ?_, hcb⟩
          · rw [← ha, hrest]
            simp
          · rw [← ha]
            intro hm
            rcases List.mem_cons.mp hm with h1 | h2
            · exact hxc h1.symm
            · exact hcy h2
        · rintro ⟨heq, hca, hcb⟩
          cases a with
          | nil =>
            simp only [List.nil_append] at heq
            exact absurd (List.cons.inj heq).1 hxc
          | cons z a' =>
            obtain ⟨hxz, hrest⟩ := List.cons.inj heq
            have hca2 : c ∉ a' := fun hm => hca (List.mem_cons_of_mem z hm)
            have h2 := (ih a' b).mpr ⟨hrest, hca2, hcb⟩
            rw [hr] at h2
            obtain ⟨hy, hys⟩ := List.cons.inj h2
            rw [hxz, hy, hys]

theorem not_mem_of_all_refChar {s : Str} (h : s.all isRefChar = true) {c : Char}
    (hc : isRefChar c = false) : c ∉ s := by
  intro hm
  have := List.all_eq_true.mp h c hm
  rw [hc] at this
  cases this

theorem isRefChar_at : isRefChar '@' = false := by decide

theorem isRefChar_slash : isRefChar '/' = false := by decide

theorem validAccount_parts {a : Str} (h : validAccount a = true) :
    a.isEmpty = false ∧ byteLen a ≤ 39 ∧ a.all isRefChar = true := by
  simp only [validAccount, Bool.and_eq_true, Bool.not_eq_true', decide_eq_true_eq] at h
  exact ⟨h.1.1, h.1.2, h.2⟩

theorem validName_parts {n : Str} (h : validName n = true) :
    n.isEmpty = false ∧ byteLen n ≤ 64 ∧ n.all isRefChar = true := by
  simp only [validName, Bool.and_eq_true, Bool.not_eq_true', decide_eq_true_eq] at h
  exact ⟨h.1.1, h.1.2, h.2⟩

theorem parse_valid_pair (a n : Str) (ha : validAccount a = true) (hn : validName n = true) :
    SkillRef.parse (a ++ '/' :: n) = Except.ok ⟨a, n, none⟩ := by
  obtain ⟨ha1, ha2, ha3⟩ := validAccount_parts ha
  obtain ⟨hn1, hn2, hn3⟩ := validName_parts hn
  have hata : '@' ∉ a := not_mem_of_all_refChar ha3 isRefChar_at
  have hatn : '@' ∉ n := not_mem_of_all_refChar hn3 isRefChar_at
  have hsla : '/' ∉ a := not_mem_of_all_refChar ha3 isRefChar_slash
  have hsln : '/' ∉ n := not_mem_of_all_refChar hn3 isRefChar_slash
  have hsplit : rsplitOnce '@' (a ++ '/' :: n) = none := by
    apply (rsplitOnce_eq_none_iff '@' _).mpr
    intro hm
    rcases List.mem_append.mp hm with h1 | h2
    · exact hata h1
    · rcases List.mem_cons.mp h2 with h3 | h4
      · cases h3
      · exact hatn h4
  have hsp : splitOnChar '/' (a ++ '/' :: n) = [a, n] :=
    (splitOnChar_eq_pair_iff '/' _ a n).mpr ⟨rfl, hsla, hsln⟩
  have hlen_a : ¬(byteLen a > 39) := Nat.not_lt.mpr ha2
  have hlen_n : ¬(byteLen n > 64) := Nat.not_lt.mpr hn2
  simp only [SkillRef.parse, hsplit, hsp]
  simp [ha1, hn1, ha3, hn3, hlen_a, hlen_n]

theorem parse_valid_triple (a n v : Str) (ha : validAccount a = true)
    (hn : validName n = true) (hv1 : v ≠ []) (hv2 : '@' ∉ v) :
    SkillRef.parse (a ++ '/' :: n ++ '@' :: v) = Except.ok ⟨a, n, some v⟩ := by
  obtain ⟨ha1, ha2, ha3⟩ := validAccount_parts ha
  obtain ⟨hn1, hn2, hn3⟩ := validName_parts hn
  have hsla : '/' ∉ a := not_mem_of_all_refChar ha3 isRefChar_slash
  have hsln : '/' ∉ n := not_mem_of_all_refChar hn3 isRefChar_slash
  have hsplit : rsplitOnce '@' (a ++ '/' :: n ++ '@' :: v) = some (a ++ '/' :: n, v) := by
    apply (rsplitOnce_eq_some_iff '@' _ _ _).mpr
    refine ⟨?_, hv2⟩
    simp
  have hsp : splitOnChar '/' (a ++ '/' :: n) = [a, n] :=
    (splitOnChar_eq_pair_iff '/' _ a n).mpr ⟨rfl, hsla, hsln⟩
  have hlen_a : ¬(byteLen a > 39) := Nat.not_lt.mpr ha2
  have hlen_n : ¬(byteLen n > 64) := Nat.not_lt.mpr hn2
  have hvne : v.isEmpty = false := by
    cases v with
    | nil => exact absurd rfl hv1
    | cons x xs => rfl
  simp only [SkillRef.parse, hsplit, hvne, Bool.false_eq_true, if_false, hsp]
  simp [ha1, hn1, ha3, hn3, hlen_a, hlen_n]

theorem parse_ok_shape (s : Str) (r : SkillRef) (hr : SkillRef.parse s = Except.ok r) :
    (∃ a n, s = a ++ '/' :: n ∧ validAccount a = true ∧ validName n = true ∧
      r = ⟨a, n, none⟩) ∨
    (∃ a n v, s = a ++ '/' :: n ++ '@' :: v ∧ validAccount a = true ∧ validName n = true ∧
      v ≠ [] ∧ '@' ∉ v ∧ r = ⟨a, n, some v⟩) := by
  cases h1 : rsplitOnce '@' s with
  | none =>
    left
    cases h2 : splitOnChar '/' s with
    | nil => exact absurd h2 (splitOnChar_ne_nil '/' s)
    | cons a tl =>
      cases tl with
      | nil => simp [SkillRef.parse, h1, h2] at hr
      | cons n tl2 =>
        cases tl2 with
        | nil =>
          simp only [SkillRef.parse, h1, h2] at hr
          split at hr
          · cases hr
          · split at hr
            · cases hr
            · split at hr
              · cases hr
              · split at hr
                · cases hr
                · rename_i hc1 hc2 hc3 hc4
                  obtain ⟨hs, -, -⟩ := (splitOnChar_eq_pair_iff '/' s a n).mp h2
                  refine ⟨a, n, hs, ?_, ?_, (Except.ok.inj hr).symm⟩
                  · simp only [Bool.or_eq_true, not_or, decide_eq_true_eq] at hc1
                    simp only [Bool.not_eq_true] at hc2
                    simp only [validAccount, Bool.and_eq_true, Bool.not_eq_true',
                      decide_eq_true_eq]
                    refine ⟨⟨?_, ?_⟩, ?_⟩
                    · exact Bool.not_eq_true _ ▸ hc1.1
                    · omega
                    · simpa using hc2
                  · simp only [Bool.or_eq_true, not_or, decide_eq_true_eq] at hc3
                    simp only [Bool.not_eq_true] at hc4
                    simp only [validName, Bool.and_eq_true, Bool.not_eq_true',
                      decide_eq_true_eq]
                    refine ⟨⟨?_, ?_⟩, ?_⟩
                    · exact Bool.not_eq_true _ ▸ hc3.1
                    · omega
                    · simpa using hc4
        | cons x xs => simp [SkillRef.parse, h1, h2] at hr
  | some idver =>
    obtain ⟨id, ver⟩ := idver
    right
    cases hv : ver.isEmpty with
    | true => simp [SkillRef.parse, h1, hv] at hr
    | false =>
      cases h2 : splitOnChar '/' id with
      | nil => exact absurd h2 (splitOnChar_ne_nil '/' id)
      | cons a tl =>
        cases tl with
        | nil => simp [SkillRef.parse, h1, hv, h2] at hr
        | cons n tl2 =>
          cases tl2 with
          | nil =>
            simp only [SkillRef.parse, h1, hv, Bool.false_eq_true, if_false, h2] at hr
            split at hr
            · cases hr
            · split at hr
              · cases hr
              · split at hr
                · cases hr
                · split at hr
                  · cases hr
                  · rename_i hc1 hc2 hc3 hc4
                    obtain ⟨hsid, -, -⟩ := (splitOnChar_eq_pair_iff '/' id a n).mp h2
                    obtain ⟨hs, hver⟩ := (rsplitOnce_eq_some_iff '@' s id ver).mp h1
                    refine ⟨a, n, ver, ?_, ?_, ?_, ?_, hver, (Except.ok.inj hr).symm⟩
                    · rw [hs, hsid]
                    · simp only [Bool.or_eq_true, not_or, decide_eq_true_eq] at hc1
                      simp only [Bool.not_eq_true] at hc2
                      simp only [validAccount, Bool.and_eq_true, Bool.not_eq_true',
                        decide_eq_true_eq]
                      refine ⟨⟨?_, ?_⟩, ?_⟩
                      · exact Bool.not_eq_true _ ▸ hc1.1
                      · omega
                      · simpa using hc2
                    · simp only [Bool.or_eq_true, not_or, decide_eq_true_eq] at hc3
                      simp only [Bool.not_eq_true] at hc4
                      simp only [validName, Bool.and_eq_true, Bool.not_eq_true',
                        decide_eq_true_eq]
                      refine ⟨⟨?_, ?_⟩, ?_⟩
                      · exact Bool.not_eq_true _ ▸ hc3.1
                      · omega
                      · simpa using hc4
                    · intro hnil
                      rw [hnil] at hv
                      cases hv
          | cons x xs => simp [SkillRef.parse, h1, hv, h2] at hr

/-- C2 (amended): `SkillRef::parse` succeeds exactly on the strings of
the form `account/name` or `account/name@version` where the account is
1-39 bytes of lowercase-alphanumeric-or-hyphen, the name is 1-64 bytes
of the same charset, and the version segment (after the last `@`) is
nonempty; equivalently, it errors exactly when the segment after the
last `@` is empty, or the identifier does not split into exactly two
`/`-delimited parts, or account or name violate the length or charset
rules.  Hyphen placement inside the name is not checked. -/
theorem skillRef_parse_ok_characterization (s : Str) :
    (∃ r, SkillRef.parse s = Except.ok r) ↔
      ((∃ a n, s = a ++ '/' :: n ∧ validAccount a = true ∧ validName n = true) ∨
       (∃ a n v, s = a ++ '/' :: n ++ '@' :: v ∧ validAccount a = true ∧
         validName n = true ∧ v ≠ [] ∧ '@' ∉ v)) := by
  constructor
  · rintro ⟨r, hr⟩
    rcases parse_ok_shape s r hr with ⟨a, n, h1, h2, h3, -⟩ | ⟨a, n, v, h1, h2, h3, h4, h5, -⟩
    · exact Or.inl ⟨a, n, h1, h2, h3⟩
    · exact Or.inr ⟨a, n, v, h1, h2, h3, h4, h5⟩
  · rintro (⟨a, n, rfl, h2, h3⟩ | ⟨a, n, v, rfl, h2, h3, h4, h5⟩)
    · exact ⟨⟨a, n, none⟩, parse_valid_pair a n h2 h3⟩
    · exact ⟨⟨a, n, some v⟩, parse_valid_triple a n v h2 h3 h4 h5⟩

/-- C2 counterexample: the claim requires a parse error whenever the
skill name starts or ends with a hyphen or contains a double hyphen,
but `SkillRef::parse` accepts all three shapes. -/
theorem skillRef_parse_hyphen_cex :
    SkillRef.parse (lit "a/-b") = Except.ok ⟨lit "a", lit "-b", none⟩ ∧
    SkillRef.parse (lit "a/b-") = Except.ok ⟨lit "a", lit "b-", none⟩ ∧
    SkillRef.parse (lit "a/b--c") = Except.ok ⟨lit "a", lit "b--c", none⟩ :=
  ⟨rfl, rfl, rfl⟩

/-- C4 (amended): for valid account and name parts, `parse` followed by
`to_uri` round-trips `account/name` exactly, and for any nonempty
version X containing no `@`, round-trips `account/name@X` with the
parsed reference carrying version X. -/
theorem skillRef_roundtrip (a n : Str) (ha : validAccount a = true)
    (hn : validName n = true) :
    (SkillRef.parse (a ++ '/' :: n) = Except.ok ⟨a, n, none⟩ ∧
      SkillRef.to_uri ⟨a, n, none⟩ = a ++ '/' :: n) ∧
    ∀ v : Str, v ≠ [] → '@' ∉ v →
      SkillRef.parse (a ++ '/' :: n ++ '@' :: v) = Except.ok ⟨a, n, some v⟩ ∧
      SkillRef.to_uri ⟨a, n, some v⟩ = a ++ '/' :: n ++ '@' :: v := by
  refine ⟨⟨parse_valid_pair a n ha hn, rfl⟩, ?_⟩
  intro v hv1 hv2
  exact ⟨parse_valid_triple a n v ha hn hv1 hv2, rfl⟩

/-- C4 witness: the round-trip theorem applied to a concrete valid
reference with a version. -/
theorem skillRef_roundtrip_witness :
    SkillRef.parse (lit "stakpak/kubernetes-deploy@1.2.3") =
      Except.ok ⟨lit "stakpak", lit "kubernetes-deploy", some (lit "1.2.3")⟩ ∧
    SkillRef.to_uri ⟨lit "stakpak", lit "kubernetes-deploy", some (lit "1.2.3")⟩ =
      lit "stakpak/kubernetes-deploy@1.2.3" := by
  have h := (skillRef_roundtrip (lit "stakpak") (lit "kubernetes-deploy")
    (by decide) (by decide)).2 (lit "1.2.3") (by decide) (by decide)
  exact h

/-- C4 counterexample: with the valid parts a and b and the nonempty
version X = 1@2, the claim asserts a successful round-trip of a/b@1@2,
but `SkillRef::parse` rejects that string (the split happens at the
last `@`, leaving an invalid name b@1). -/
theorem skillRef_roundtrip_at_version_cex :
    validAccount (lit "a") = true ∧ validName (lit "b") = true ∧ lit "1@2" ≠ [] ∧
    lit "a" ++ '/' :: lit "b" ++ '@' :: lit "1@2" = lit "a/b@1@2" ∧
    (SkillRef.parse (lit "a/b@1@2")).isOk = false :=
  ⟨rfl, rfl, by decide, rfl, rfl⟩

theorem except_isOk_iff {ε α : Type} (e : Except ε α) :
    e.isOk = true ↔ ∃ t, e = Except.ok t := by
  cases e <;> simp [Except.isOk, Except.toBool]

theorem parse_version_ok_iff (s : Str) (a b c : Nat) :
    parse_version s = Except.ok (a, b, c) ↔
      ∃ p0 p1 p2, splitOnChar '.' (stripLeadingV s) = [p0, p1, p2] ∧
        parseU32 p0 = some a ∧ parseU32 p1 = some b ∧ parseU32 p2 = some c := by
  constructor
  · intro h
    cases hL : splitOnChar '.' (stripLeadingV s) with
    | nil => simp [parse_version, hL] at h
    | cons p0 t0 =>
      cases t0 with
      | nil => simp [parse_version, hL] at h
      | cons p1 t1 =>
        cases t1 with
        | nil => simp [parse_version, hL] at h
        | cons p2 t2 =>
          cases t2 with
          | nil =>
            refine ⟨p0, p1, p2, rfl, ?_⟩
            simp only [parse_version, hL] at h
            cases h0 : parseU32 p0 with
            | none => simp [h0] at h
            | some x =>
              simp only [h0] at h
              cases h1 : parseU32 p1 with
              | none => simp [h1] at h
              | some y =>
                simp only [h1] at h
                cases h2 : parseU32 p2 with
                | none => simp [h2] at h
                | some z =>
                  simp only [h2, Except.ok.injEq, Prod.mk.injEq] at h
                  exact ⟨by rw [h.1], by rw [h.2.1], by rw [h.2.2]⟩
          | cons p3 t3 => simp [parse_version, hL] at h
  · rintro ⟨p0, p1, p2, hL, h0, h1, h2⟩
    simp [parse_version, hL, h0, h1, h2]

theorem parse_version_isOk_iff (s : Str) :
    (parse_version s).isOk = true ↔
      ∃ p0 p1 p2, splitOnChar '.' (stripLeadingV s) = [p0, p1, p2] ∧
        (parseU32 p0).isSome = true ∧ (parseU32 p1).isSome = true ∧
        (parseU32 p2).isSome = true := by
  rw [except_isOk_iff]
  constructor
  · rintro ⟨⟨a, b, c⟩, h⟩
    obtain ⟨p0, p1, p2, hL, h0, h1, h2⟩ := (parse_version_ok_iff s a b c).mp h
    exact ⟨p0, p1, p2, hL, by simp [h0], by simp [h1], by simp [h2]⟩
  · rintro ⟨p0, p1, p2, hL, h0, h1, h2⟩
    obtain ⟨a, ha⟩ := Option.isSome_iff_exists.mp h0
    obtain ⟨b, hb⟩ := Option.isSome_iff_exists.mp h1
    obtain ⟨c, hc⟩ := Option.isSome_iff_exists.mp h2
    exact ⟨(a, b, c), (parse_version_ok_iff s a b c).mpr ⟨p0, p1, p2, hL, ha, hb, hc⟩⟩

/-- C5: `parse_version` strips one optional leading v, splits on `.`,
and succeeds with the triple of parsed numbers exactly when there are
exactly three parts each parsing as a u32; in particular 1.2.3 and
v1.2.3 both parse to (1,2,3), while 1.2 and v1.x.3 are errors. -/
theorem parse_version_claim :
    (∀ (s : Str) (a b c : Nat), parse_version s = Except.ok (a, b, c) ↔
      ∃ p0 p1 p2, splitOnChar '.' (stripLeadingV s) = [p0, p1, p2] ∧
        parseU32 p0 = some a ∧ parseU32 p1 = some b ∧ parseU32 p2 = some c) ∧
    (∀ s : Str, (parse_version s).isOk = true ↔
      ∃ p0 p1 p2, splitOnChar '.' (stripLeadingV s) = [p0, p1, p2] ∧
        (parseU32 p0).isSome = true ∧ (parseU32 p1).isSome = true ∧
        (parseU32 p2).isSome = true) ∧
    parse_version (lit "1.2.3") = Except.ok (1, 2, 3) ∧
    parse_version (lit "v1.2.3") = Except.ok (1, 2, 3) ∧
    (parse_version (lit "1.2")).isOk = false ∧
    (parse_version (lit "v1.x.3")).isOk = false :=
  ⟨parse_version_ok_iff, parse_version_isOk_iff, rfl, rfl, rfl, rfl⟩

/-- C6 (amended): with no explicit tag and the assume-yes flag set,
the selected tag is the patch bump of the manifest's current version
computed in u32 arithmetic — v{major}.{minor}.{(patch+1) mod 2^32},
with the v prefix reintroduced and needs_create set — which equals
the plain patch bump v{major}.{minor}.{patch+1} whenever patch + 1
fits in a u32; the pipeline fails when a tag of that name already
exists. -/
theorem selectTag_noninteractive (cur : Str) (tE : Str → Bool) (ps : TagSelection)
    (mj mn pt : Nat) (h : parse_version cur = Except.ok (mj, mn, pt)) :
    (tE (vTag mj mn ((pt + 1) % 2 ^ 32)) = false →
      selectTag none true cur tE ps = Except.ok (vTag mj mn ((pt + 1) % 2 ^ 32), true)) ∧
    (tE (vTag mj mn ((pt + 1) % 2 ^ 32)) = true →
      selectTag none true cur tE ps = Except.error "Tag already exists.") ∧
    (pt + 1 < 2 ^ 32 → tE (vTag mj mn (pt + 1)) = false →
      selectTag none true cur tE ps = Except.ok (vTag mj mn (pt + 1), true)) := by
  refine ⟨?_, ?_, ?_⟩
  · intro hE
    have hE4 : tE (vTag mj mn ((pt + 1) % 4294967296)) = false := hE
    simp [selectTag, h, hE4]
  · intro hE
    have hE4 : tE (vTag mj mn ((pt + 1) % 4294967296)) = true := hE
    simp [selectTag, h, hE4]
  · intro hlt hE
    have hmod : (pt + 1) % 2 ^ 32 = pt + 1 := Nat.mod_eq_of_lt hlt
    rw [← hmod] at hE ⊢
    have hE4 : tE (vTag mj mn ((pt + 1) % 4294967296)) = false := hE
    simp [selectTag, h, hE4]

/-- C6 witness: bumping 1.2.3 in a repository with no tags selects
v1.2.4 as a new tag. -/
theorem selectTag_noninteractive_witness :
    selectTag none true (lit "1.2.3") (fun _ => false) (TagSelection.New []) =
      Except.ok (lit "v1.2.4", true) :=
  (selectTag_noninteractive (lit "1.2.3") (fun _ => false) (TagSelection.New [])
    1 2 3 (by rfl)).2.2 (by decide) (by rfl)

/-- C6 counterexample: at manifest version 0.0.4294967295 — which
`parse_version` accepts, patch being exactly the u32 maximum — the
non-interactive bump wraps and selects v0.0.0, not the
v0.0.4294967296 that the unbounded patch-plus-one of the claim
denotes. -/
theorem selectTag_overflow_cex :
    parse_version (lit "0.0.4294967295") = Except.ok (0, 0, 4294967295) ∧
    selectTag none true (lit "0.0.4294967295") (fun _ => false) (TagSelection.New []) =
      Except.ok (lit "v0.0.0", true) ∧
    (lit "v0.0.0" : Str) ≠ vTag 0 0 (4294967295 + 1) :=
  ⟨rfl, rfl, by decide⟩

/-- C7 (amended): an explicit tag argument is first normalized by
prepending v when it lacks one; the normalized tag must parse as
semver and must already exist, otherwise the pipeline fails; on
success the existing normalized tag is used with needs_create false,
so the tagging step performs no git action. -/
theorem selectTag_explicit_policy (expl cur : Str) (yes : Bool) (tE : Str → Bool)
    (ps : TagSelection) :
    ((parse_version (normalizeTagArg expl)).isOk = false →
      (selectTag (some expl) yes cur tE ps).isOk = false) ∧
    ((parse_version (normalizeTagArg expl)).isOk = true →
      tE (normalizeTagArg expl) = false →
      (selectTag (some expl) yes cur tE ps).isOk = false) ∧
    ((parse_version (normalizeTagArg expl)).isOk = true →
      tE (normalizeTagArg expl) = true →
      selectTag (some expl) yes cur tE ps = Except.ok (normalizeTagArg expl, false) ∧
      publishTagActions (normalizeTagArg expl) false = []) := by
  refine ⟨?_, ?_, ?_⟩
  · intro h
    cases hp : parse_version (normalizeTagArg expl) with
    | error e => simp [selectTag, hp, Except.isOk, Except.toBool]
    | ok t => simp [hp, Except.isOk, Except.toBool] at h
  · intro h hE
    cases hp : parse_version (normalizeTagArg expl) with
    | error e => simp [selectTag, hp, Except.isOk, Except.toBool]
    | ok t => simp [selectTag, hp, hE, Except.isOk, Except.toBool]
  · intro h hE
    cases hp : parse_version (normalizeTagArg expl) with
    | error e => simp [hp, Except.isOk, Except.toBool] at h
    | ok t =>
      exact ⟨by simp [selectTag, hp, hE], by simp [publishTagActions]⟩

/-- C7 witness: the explicit tag v1.2.3, which exists, is used as-is
with no tag creation or push. -/
theorem selectTag_explicit_policy_witness :
    selectTag (some (lit "v1.2.3")) false (lit "0.1.0") (fun t => t == lit "v1.2.3")
      (TagSelection.New []) = Except.ok (lit "v1.2.3", false) ∧
    publishTagActions (lit "v1.2.3") false = [] :=
  (selectTag_explicit_policy (lit "v1.2.3") (lit "0.1.0") false
    (fun t => t == lit "v1.2.3") (TagSelection.New [])).2.2 (by rfl) (by rfl)

/-- C7 counterexample: the explicit argument 1.2.3 does not carry the
v prefix the claim demands, yet the pipeline succeeds (the argument is
silently normalized to v1.2.3 and that tag exists). -/
theorem selectTag_explicit_no_v_cex :
    (lit "v").isPrefixOf (lit "1.2.3") = false ∧
    selectTag (some (lit "1.2.3")) false (lit "0.1.0") (fun t => t == lit "v1.2.3")
      (TagSelection.New []) = Except.ok (lit "v1.2.3", false) :=
  ⟨rfl, rfl⟩

/-- C1: registry install with an existing target: without force, equal
versions make the install a success that performs no filesystem
mutation; any other outcome of loading the installed version is a
state-conflict error with no mutation; with force, the target is
removed and then the fresh copy is placed. -/
theorem install_from_registry_target_policy (force : Bool) (loadVersion : Option Str)
    (resolved : Str) :
    (force = false → loadVersion = some resolved →
      install_from_registry_plan force true loadVersion resolved = Except.ok []) ∧
    (force = false → loadVersion ≠ some resolved →
      (install_from_registry_plan force true loadVersion resolved).isOk = false) ∧
    (force = true →
      install_from_registry_plan force true loadVersion resolved =
        Except.ok [RegistryInstallStep.removeTarget, RegistryInstallStep.placeCopy]) := by
  refine ⟨?_, ?_, ?_⟩
  · rintro rfl rfl
    simp [install_from_registry_plan]
  · rintro rfl hne
    cases loadVersion with
    | none => simp [install_from_registry_plan, Except.isOk, Except.toBool]
    | some v =>
      have hv : ¬(v = resolved) := fun h => hne (by rw [h])
      simp [install_from_registry_plan, hv, Except.isOk, Except.toBool]
  · rintro rfl
    simp [install_from_registry_plan]

/-- C1 witness: reinstalling the version that is already installed,
without force, is a no-op success. -/
theorem install_from_registry_target_policy_witness :
    install_from_registry_plan false true (some (lit "1.0.0")) (lit "1.0.0") =
      Except.ok [] :=
  (install_from_registry_target_policy false (some (lit "1.0.0")) (lit "1.0.0")).1 rfl rfl

/-- C10: the defensive second parse attempt in `detect_source_type`
never changes the result; the classifier equals the variant with the
retry branch removed, for every filesystem state and input. -/
theorem detect_source_type_retry_redundant (fsHasSkill : Str → Bool) (source : Str) :
    detect_source_type fsHasSkill source = detect_source_type_noretry fsHasSkill source := by
  unfold detect_source_type detect_source_type_noretry
  cases hp : SkillRef.parse source with
  | ok r => simp [hp]
  | error e =>
    simp [hp, ite_self]

theorem gitFree_copy_dir (es : List (String × FsTree)) :
    entriesGitFree (copy_dir_recursive es) = true := by
  induction es using copy_dir_recursive.induct <;>
    simp_all [copy_dir_recursive, entriesGitFree]

theorem copy_dir_preserves_file (n : String) (d : List Nat) :
    ∀ es : List (String × FsTree), (n, FsTree.file d) ∈ es →
      (n, FsTree.file d) ∈ copy_dir_recursive es := by
  intro es
  induction es with
  | nil => intro h; cases h
  | cons e rest ih =>
    obtain ⟨m, t⟩ := e
    intro h
    rcases List.mem_cons.mp h with heq | hmem
    · cases heq
      simp [copy_dir_recursive]
    · cases t with
      | dir es2 =>
        by_cases hm : m = ".git"
        · simp only [copy_dir_recursive, if_pos hm]
          exact ih hmem
        · simp only [copy_dir_recursive, if_neg hm]
          exact List.mem_cons_of_mem _ (ih hmem)
      | file d2 =>
        simp only [copy_dir_recursive]
        exact List.mem_cons_of_mem _ (ih hmem)
      | symlink t2 =>
        simp only [copy_dir_recursive]
        exact List.mem_cons_of_mem _ (ih hmem)

theorem copy_dir_preserves_symlink (n : String) (tgt : String) :
    ∀ es : List (String × FsTree), (n, FsTree.symlink tgt) ∈ es →
      (n, FsTree.symlink tgt) ∈ copy_dir_recursive es := by
  intro es
  induction es with
  | nil => intro h; cases h
  | cons e rest ih =>
    obtain ⟨m, t⟩ := e
    intro h
    rcases List.mem_cons.mp h with heq | hmem
    · cases heq
      simp [copy_dir_recursive]
    · cases t with
      | dir es2 =>
        by_cases hm : m = ".git"
        · simp only [copy_dir_recursive, if_pos hm]
          exact ih hmem
        · simp only [copy_dir_recursive, if_neg hm]
          exact List.mem_cons_of_mem _ (ih hmem)
      | file d2 =>
        simp only [copy_dir_recursive]
        exact List.mem_cons_of_mem _ (ih hmem)
      | symlink t2 =>
        simp only [copy_dir_recursive]
        exact List.mem_cons_of_mem _ (ih hmem)

theorem copy_dir_preserves_dir (n : String) (hn : n ≠ ".git") :
    ∀ (es es2 : List (String × FsTree)), (n, FsTree.dir es2) ∈ es →
      (n, FsTree.dir (copy_dir_recursive es2)) ∈ copy_dir_recursive es := by
  intro es
  induction es with
  | nil => intro es2 h; cases h
  | cons e rest ih =>
    obtain ⟨m, t⟩ := e
    intro es2 h
    rcases List.mem_cons.mp h with heq | hmem
    · cases heq
      simp only [copy_dir_recursive, if_neg hn]
      exact List.mem_cons_self _ _
    · cases t with
      | dir es3 =>
        by_cases hm : m = ".git"
        · simp only [copy_dir_recursive, if_pos hm]
          exact ih es2 hmem
        · simp only [copy_dir_recursive, if_neg hm]
          exact List.mem_cons_of_mem _ (ih es2 hmem)
      | file d2 =>
        simp only [copy_dir_recursive]
        exact List.mem_cons_of_mem _ (ih es2 hmem)
      | symlink t2 =>
        simp only [copy_dir_recursive]
        exact List.mem_cons_of_mem _ (ih es2 hmem)

/-- C9: the materializer never reproduces a directory named .git at
any depth of the destination, byte-copies every regular file, and
recreates every symbolic link as a symbolic link with the same target
(directories other than .git being recursed into). -/
theorem copy_dir_recursive_spec (es : List (String × FsTree)) :
    entriesGitFree (copy_dir_recursive es) = true ∧
    (∀ (n : String) (d : List Nat), (n, FsTree.file d) ∈ es →
      (n, FsTree.file d) ∈ copy_dir_recursive es) ∧
    (∀ (n tgt : String), (n, FsTree.symlink tgt) ∈ es →
      (n, FsTree.symlink tgt) ∈ copy_dir_recursive es) ∧
    (∀ (n : String) (es2 : List (String × FsTree)), n ≠ ".git" →
      (n, FsTree.dir es2) ∈ es →
      (n, FsTree.dir (copy_dir_recursive es2)) ∈ copy_dir_recursive es) :=
  ⟨gitFree_copy_dir es,
   fun n d h => copy_dir_preserves_file n d es h,
   fun n tgt h => copy_dir_preserves_symlink n tgt es h,
   fun n es2 hn h => copy_dir_preserves_dir n hn es es2 h⟩

/-- C9 witness: the spec applied to a concrete tree containing a
file, a symlink, a .git subdirectory, and a normal subdirectory. -/
theorem copy_dir_recursive_spec_witness :
    entriesGitFree (copy_dir_recursive
      [("a", FsTree.file [7]), ("L", FsTree.symlink "tgt"),
       (".git", FsTree.dir [("y", FsTree.file [1])]), ("sub", FsTree.dir [])]) = true ∧
    ("a", FsTree.file [7]) ∈ copy_dir_recursive
      [("a", FsTree.file [7]), ("L", FsTree.symlink "tgt"),
       (".git", FsTree.dir [("y", FsTree.file [1])]), ("sub", FsTree.dir [])] ∧
    ("L", FsTree.symlink "tgt") ∈ copy_dir_recursive
      [("a", FsTree.file [7]), ("L", FsTree.symlink "tgt"),
       (".git", FsTree.dir [("y", FsTree.file [1])]), ("sub", FsTree.dir [])] ∧
    ("sub", FsTree.dir (copy_dir_recursive [])) ∈ copy_dir_recursive
      [("a", FsTree.file [7]), ("L", FsTree.symlink "tgt"),
       (".git", FsTree.dir [("y", FsTree.file [1])]), ("sub", FsTree.dir [])] := by
  have h := copy_dir_recursive_spec
    [("a", FsTree.file [7]), ("L", FsTree.symlink "tgt"),
     (".git", FsTree.dir [("y", FsTree.file [1])]), ("sub", FsTree.dir [])]
  exact ⟨h.1, h.2.1 "a" [7] (by simp), h.2.2.1 "L" "tgt" (by simp),
    h.2.2.2 "sub" [] (by simp) (by simp)⟩

theorem validate_ok_iff (f : SkillFrontmatter) :
    (SkillFrontmatter.validate f).isOk = true ↔
      (f.name ≠ [] ∧ byteLen f.name ≤ 64 ∧ f.name.all isRefChar = true ∧
       f.name.head? ≠ some '-' ∧ f.name.getLast? ≠ some '-' ∧
       hasSub (lit "--") f.name = false ∧
       f.description ≠ [] ∧ byteLen f.description ≤ 1024 ∧
       ∀ compat, f.compatibility = some compat → byteLen compat ≤ 500) := by
  simp only [SkillFrontmatter.validate]
  by_cases h1 : (f.name.isEmpty || decide (byteLen f.name > 64)) = true
  · rw [if_pos h1]
    simp only [Except.isOk, Except.toBool, Bool.false_eq_true, false_iff]
    rintro ⟨hne, hlen, -⟩
    rw [Bool.or_eq_true] at h1
    rcases h1 with h | h
    · exact hne (List.isEmpty_iff.mp h)
    · have : byteLen f.name > 64 := by simpa using h
      omega
  · rw [if_neg h1]
    simp only [Bool.or_eq_true, not_or, Bool.not_eq_true, decide_eq_true_eq,
      Nat.not_lt] at h1
    by_cases h2 : (!(f.name.all isRefChar)) = true
    · rw [if_pos h2]
      simp only [Except.isOk, Except.toBool, Bool.false_eq_true, false_iff]
      rintro ⟨-, -, hall, -⟩
      simp [hall] at h2
    · rw [if_neg h2]
      have h2' : f.name.all isRefChar = true := by simpa using h2
      by_cases h3 : (f.name.head? == some '-' || f.name.getLast? == some '-') = true
      · rw [if_pos h3]
        simp only [Except.isOk, Except.toBool, Bool.false_eq_true, false_iff]
        rintro ⟨-, -, -, hh, hl, -⟩
        rw [Bool.or_eq_true] at h3
        rcases h3 with h | h
        · exact hh (by simpa using h)
        · exact hl (by simpa using h)
      · rw [if_neg h3]
        have hh : f.name.head? ≠ some '-' := by
          intro hc
          apply h3
          rw [Bool.or_eq_true]
          exact Or.inl (by simp [hc])
        have hl : f.name.getLast? ≠ some '-' := by
          intro hc
          apply h3
          rw [Bool.or_eq_true]
          exact Or.inr (by simp [hc])
        by_cases h4 : (hasSub (lit "--") f.name) = true
        · rw [if_pos h4]
          simp only [Except.isOk, Except.toBool, Bool.false_eq_true, false_iff]
          rintro ⟨-, -, -, -, -, hsub, -⟩
          simp [hsub] at h4
        · rw [if_neg h4]
          have h4' : hasSub (lit "--") f.name = false := by simpa using h4
          by_cases h5 : (f.description.isEmpty || decide (byteLen f.description > 1024)) = true
          · rw [if_pos h5]
            simp only [Except.isOk, Except.toBool, Bool.false_eq_true, false_iff]
            rintro ⟨-, -, -, -, -, -, hdne, hdlen, -⟩
            rw [Bool.or_eq_true] at h5
            rcases h5 with h | h
            · exact hdne (List.isEmpty_iff.mp h)
            · have : byteLen f.description > 1024 := by simpa using h
              omega
          · rw [if_neg h5]
            simp only [Bool.or_eq_true, not_or, Bool.not_eq_true, decide_eq_true_eq,
              Nat.not_lt] at h5
            have hname_ne : f.name ≠ [] := by
              intro hceq
              rw [hceq] at h1
              simp at h1
            have hdesc_ne : f.description ≠ [] := by
              intro hceq
              rw [hceq] at h5
              simp at h5
            cases hc : f.compatibility with
            | none =>
              simp only [Except.isOk, Except.toBool, true_iff]
              refine ⟨hname_ne, h1.2, h2', hh, hl, h4', hdesc_ne, h5.2, ?_⟩
              intro compat hcompat
              cases hcompat
            | some compat =>
              by_cases h6 : byteLen compat > 500
              · simp only [if_pos h6, Except.isOk, Except.toBool, Bool.false_eq_true,
                  false_iff]
                rintro ⟨-, -, -, -, -, -, -, -, hcomp⟩
                have := hcomp compat rfl
                omega
              · simp only [if_neg h6, Except.isOk, Except.toBool, true_iff]
                refine ⟨hname_ne, h1.2, h2', hh, hl, h4', hdesc_ne, h5.2, ?_⟩
                intro c hceq
                cases hceq
                omega

theorem validate_warnings (f : SkillFrontmatter) (w : List Str)
    (h : SkillFrontmatter.validate f = Except.ok w) :
    w = if byteLen f.description < 20 then
      [lit "description is very short; consider adding more detail"] else [] := by
  simp only [SkillFrontmatter.validate] at h
  split at h
  · cases h
  · split at h
    · cases h
    · split at h
      · cases h
      · split at h
        · cases h
        · split at h
          · cases h
          · split at h
            · split at h
              · cases h
              · exact (Except.ok.inj h).symm
            · exact (Except.ok.inj h).symm

/-- C8 (amended): `SkillFrontmatter::validate` hard-fails exactly when
the name is empty or longer than 64 bytes, contains a character
outside lowercase-alphanumeric-hyphen, starts or ends with a hyphen,
or contains a double hyphen, or the description is empty or longer
than 1024 bytes, or the compatibility field is longer than 500 bytes
(Rust `len`, so lengths count UTF-8 bytes, which coincides with chars
for ASCII text); a successful validation returns exactly one warning
when the description is shorter than 20 bytes and none otherwise; in
particular names My-Skill, my--skill, -my-skill and an empty
description fail, while a 10-char description succeeds with the
very-short warning. -/
theorem skillFrontmatter_validate_claim :
    (∀ f : SkillFrontmatter, (SkillFrontmatter.validate f).isOk = true ↔
      (f.name ≠ [] ∧ byteLen f.name ≤ 64 ∧ f.name.all isRefChar = true ∧
       f.name.head? ≠ some '-' ∧ f.name.getLast? ≠ some '-' ∧
       hasSub (lit "--") f.name = false ∧
       f.description ≠ [] ∧ byteLen f.description ≤ 1024 ∧
       ∀ compat, f.compatibility = some compat → byteLen compat ≤ 500)) ∧
    (∀ (f : SkillFrontmatter) (w : List Str), SkillFrontmatter.validate f = Except.ok w →
      w = if byteLen f.description < 20 then
        [lit "description is very short; consider adding more detail"] else []) ∧
    (SkillFrontmatter.validate
      ⟨lit "My-Skill", lit "A skill that does something useful", none⟩).isOk = false ∧
    (SkillFrontmatter.validate
      ⟨lit "my--skill", lit "A skill that does something useful", none⟩).isOk = false ∧
    (SkillFrontmatter.validate
      ⟨lit "-my-skill", lit "A skill that does something useful", none⟩).isOk = false ∧
    (SkillFrontmatter.validate ⟨lit "my-skill", [], none⟩).isOk = false ∧
    SkillFrontmatter.validate ⟨lit "my-skill", lit "short desc", none⟩ =
      Except.ok [lit "description is very short; consider adding more detail"] :=
  ⟨validate_ok_iff, validate_warnings, rfl, rfl, rfl, rfl, rfl⟩

set_option maxRecDepth 8000 in
/-- C8 counterexample: a 513-character description made of three-byte
characters is well within the claim 1024-char bound (and over the
20-char warning bound), so the claim predicts a clean success, but
`validate` hard-fails because Rust `len` counts 1539 bytes. -/
theorem skillFrontmatter_validate_chars_cex :
    (List.replicate 513 '€').length = 513 ∧
    byteLen (List.replicate 513 '€') = 1539 ∧
    (SkillFrontmatter.validate
      ⟨lit "my-skill", List.replicate 513 '€', none⟩).isOk = false := by
  refine ⟨by simp, ?_, ?_⟩
  · decide
  · decide

theorem gitFragStep_eq (st : Option Str × Option Str) (p : Str) :
    gitFragStep st p =
      ((match refKeyVal p with | some v => some v | none => st.1),
       (match pathKeyVal p with | some v => some v | none => st.2)) := by
  cases hr : stripPre (lit "ref=") p with
  | some v =>
    have hp := (stripPre_eq_some_iff (lit "ref=") p v).mp hr
    subst hp
    rfl
  | none =>
    cases ht : stripPre (lit "tag=") p with
    | some v =>
      have hp := (stripPre_eq_some_iff (lit "tag=") p v).mp ht
      subst hp
      rfl
    | none =>
      cases hb : stripPre (lit "branch=") p with
      | some v =>
        have hp := (stripPre_eq_some_iff (lit "branch=") p v).mp hb
        subst hp
        rfl
      | none =>
        cases hpa : stripPre (lit "path=") p with
        | some v =>
          have hp := (stripPre_eq_some_iff (lit "path=") p v).mp hpa
          subst hp
          rfl
        | none =>
          simp only [gitFragStep, refKeyVal, pathKeyVal, hr, ht, hb, hpa]

theorem foldl_gitFragStep (parts : List Str) : ∀ st : Option Str × Option Str,
    parts.foldl gitFragStep st =
      ((match lastRefVal parts with | some v => some v | none => st.1),
       (match lastPathVal parts with | some v => some v | none => st.2)) := by
  induction parts with
  | nil => intro st; rfl
  | cons p ps ih =>
    intro st
    rw [List.foldl_cons, ih (gitFragStep st p), gitFragStep_eq]
    simp only [lastRefVal, lastPathVal]
    cases hL : lastRefVal ps <;> cases hP : lastPathVal ps <;>
      cases hR : refKeyVal p <;> cases hQ : pathKeyVal p <;> simp

theorem parse_git_url_eq (s : Str) :
    parse_git_url s =
      (gitBaseUrl s, lastRefVal (gitFragParts s), lastPathVal (gitFragParts s)) := by
  unfold parse_git_url gitBaseUrl gitFragParts
  cases h : fsplitOnce '#' s with
  | none => rfl
  | some bf =>
    obtain ⟨base, frag⟩ := bf
    simp only [foldl_gitFragStep]
    cases hL : lastRefVal (splitOnChar '&' frag) <;>
      cases hP : lastPathVal (splitOnChar '&' frag) <;> rfl

/-- C3 (amended): the classifier is total and follows its ordered
rules: git-scheme prefixes give Git with the base URL cut at the first
`#` and last-occurrence-wins ref (from `ref=`/`tag=`/`branch=`) and
path (from `path=`) fragment keys; `./`, `../`, `/` or second-char `:`
prefixes give Local; otherwise a string that does not name an existing
local skill directory and parses as `account/name[@version]` gives
Registry; an existing local skill directory gives Local; and anything
else falls back to Local. -/
theorem detect_source_type_rules (fsHasSkill : Str → Bool) (s : Str) :
    (gitUrlStart s = true →
      detect_source_type fsHasSkill s =
        SourceType.Git (gitBaseUrl s) (lastRefVal (gitFragParts s))
          (lastPathVal (gitFragParts s))) ∧
    (gitUrlStart s = false → localPathStart s = true →
      detect_source_type fsHasSkill s = SourceType.Local s) ∧
    (gitUrlStart s = false → localPathStart s = false → driveLetterLike s = true →
      detect_source_type fsHasSkill s = SourceType.Local s) ∧
    (gitUrlStart s = false → localPathStart s = false → driveLetterLike s = false →
      fsHasSkill s = true → detect_source_type fsHasSkill s = SourceType.Local s) ∧
    (gitUrlStart s = false → localPathStart s = false → driveLetterLike s = false →
      fsHasSkill s = false → ∀ r, SkillRef.parse s = Except.ok r →
      detect_source_type fsHasSkill s = SourceType.Registry r) ∧
    (gitUrlStart s = false → localPathStart s = false → driveLetterLike s = false →
      fsHasSkill s = false → ∀ e, SkillRef.parse s = Except.error e →
      detect_source_type fsHasSkill s = SourceType.Local s) := by
  refine ⟨?_, ?_, ?_, ?_, ?_, ?_⟩
  · intro hg
    simp [detect_source_type, hg, parse_git_url_eq]
  · intro hg hl
    simp [detect_source_type, hg, hl]
  · intro hg hl hd
    simp [detect_source_type, hg, hl, hd]
  · intro hg hl hd hf
    simp [detect_source_type, hg, hl, hd, hf]
  · intro hg hl hd hf r hp
    simp [detect_source_type, hg, hl, hd, hf, hp]
  · intro hg hl hd hf e hp
    simp [detect_source_type, hg, hl, hd, hf, hp, ite_self]

/-- C3 witness: the rules applied to a concrete registry reference. -/
theorem detect_source_type_rules_witness :
    detect_source_type (fun _ => false) (lit "stakpak/kubernetes-deploy") =
      SourceType.Registry ⟨lit "stakpak", lit "kubernetes-deploy", none⟩ :=
  (detect_source_type_rules (fun _ => false)
    (lit "stakpak/kubernetes-deploy")).2.2.2.2.1 rfl rfl rfl rfl
    ⟨lit "stakpak", lit "kubernetes-deploy", none⟩ rfl

/-- C3 counterexample: the string ab/cd parses as a registry reference,
but when it names an existing directory that contains SKILL.md the
classifier returns Local, not Registry as the claim requires. -/
theorem detect_source_type_registry_cex :
    (SkillRef.parse (lit "ab/cd")).isOk = true ∧
    detect_source_type (fun t => t == lit "ab/cd") (lit "ab/cd") =
      SourceType.Local (lit "ab/cd") :=
  ⟨rfl, rfl⟩

/-- C2 witness: the characterization applied to a concrete valid
reference. -/
theorem skillRef_parse_ok_characterization_witness :
    ∃ r, SkillRef.parse (lit "stakpak/kubernetes-deploy") = Except.ok r :=
  (skillRef_parse_ok_characterization (lit "stakpak/kubernetes-deploy")).mpr
    (Or.inl ⟨lit "stakpak", lit "kubernetes-deploy", rfl, by decide, by decide⟩)

/-- C5 witness: the characterization applied to a concrete version. -/
theorem parse_version_claim_witness :
    parse_version (lit "9.10.11") = Except.ok (9, 10, 11) :=
  (parse_version_claim.1 (lit "9.10.11") 9 10 11).mpr
    ⟨lit "9", lit "10", lit "11", rfl, rfl, rfl, rfl⟩

/-- C8 witness: a well-formed manifest validates successfully. -/
theorem skillFrontmatter_validate_claim_witness :
    (SkillFrontmatter.validate
      ⟨lit "my-skill", lit "A skill that does something useful", none⟩).isOk = true :=
  (skillFrontmatter_validate_claim.1 _).mpr
    ⟨by decide, by decide, by decide, by decide, by decide, by decide, by decide,
     by decide, fun compat h => by cases h⟩

/-- C10 witness: the equality applied to a slash-containing string on
which the first parse fails, exercising the retry branch. -/
theorem detect_source_type_retry_redundant_witness :
    detect_source_type (fun _ => false) (lit "x/y/z") =
      detect_source_type_noretry (fun _ => false) (lit "x/y/z") :=
  detect_source_type_retry_redundant (fun _ => false) (lit "x/y/z")
